import Mathlib

/-!
Shallow embedding of the eth-parser repository (package `internal/parser`):
the tracking engine in `parser.go` (constructor, height refresh, the
transaction-scan pass, subscriptions), the in-memory store in `storage.go`,
and the simplified data model in `models.go`.  Machine integers (Go `int`,
64-bit) are modelled as `Int` with the explicit `int64` range check that
`strconv.ParseInt(_, 16, 64)` performs; no arithmetic in the modelled code
paths wraps, since every height originates from a parse bounded to the
`int64` range and is incremented at most once per loop step.  Strings are
treated as sequences of characters; the repository only handles ASCII
hex strings, where Go's byte-based slicing agrees with character-based
slicing.  Fallible collaborator calls are modelled by explicit result
types; a Go runtime panic (out-of-range slice, failed type assertion) is a
distinguished outcome `panicked` that aborts the enclosing pass.
-/

/-- Model of `Transaction` from `models.go`: hash, sender, recipient, value,
the wire-form block number (hex string) and the decimal block number the
engine fills in after fetch. -/
structure Transaction where
  Hash : String
  From : String
  To : String
  Value : String
  BlockNumber : String
  BlockNumberDecimal : Int
deriving DecidableEq

/-- Model of `Block` from `models.go`: the wire-form number plus the ordered
transactions. -/
structure Block where
  Number : String
  Transactions : List Transaction
deriving DecidableEq

/-- Value of one hex digit, as recognised by Go's `strconv.ParseUint` with
base 16 (digits `0-9`, `a-f`, `A-F`). -/
def hexDigitValue (c : Char) : Option Nat :=
  if '0' ≤ c ∧ c ≤ '9' then some (c.toNat - '0'.toNat)
  else if 'a' ≤ c ∧ c ≤ 'f' then some (c.toNat - 'a'.toNat + 10)
  else if 'A' ≤ c ∧ c ≤ 'F' then some (c.toNat - 'A'.toNat + 10)
  else none

/-- Accumulating parser for a run of hex digits. -/
def parseHexDigitsAux : List Char → Nat → Option Nat
  | [], acc => some acc
  | c :: cs, acc =>
    match hexDigitValue c with
    | none => none
    | some d => parseHexDigitsAux cs (acc * 16 + d)

/-- Nonempty run of hex digits, as required by `strconv.ParseUint`. -/
def parseHexDigits (cs : List Char) : Option Nat :=
  match cs with
  | [] => none
  | _ => parseHexDigitsAux cs 0

/-- Model of Go `strconv.ParseInt(s, 16, 64)`: an optional single sign,
then a nonempty run of hex digits (with base 16 given explicitly, Go
accepts neither a `0x` prefix nor underscores), with the result required
to fit in a signed 64-bit integer (out of range is an error: the engine
only checks `err != nil`). -/
def goParseInt16 (s : String) : Option Int :=
  let cs := s.data
  let signAndDigits : Int × List Char :=
    match cs with
    | '-' :: rest => (-1, rest)
    | '+' :: rest => (1, rest)
    | _ => (1, cs)
  match parseHexDigits signAndDigits.2 with
  | none => none
  | some m =>
    let n : Int := signAndDigits.1 * (m : Int)
    if -(2 ^ 63) ≤ n ∧ n ≤ 2 ^ 63 - 1 then some n else none

/-- Outcome of `convertHexNumberToDecimal` (parser.go lines 288-296):
`panicked` models the Go runtime panic of the slice expression
`hexNumber[2:]` when the string is shorter than two bytes, `failed` the
`strconv.ParseInt` error path, `ok n` success. -/
inductive HexParse where
  | panicked
  | failed
  | ok (n : Int)
deriving DecidableEq

/-- Model of `convertHexNumberToDecimal` (parser.go): drops the first two
characters (panicking, as Go slicing does, when fewer than two exist) and
parses the rest as a signed 64-bit hex number. -/
def convertHexNumberToDecimal (hexNumber : String) : HexParse :=
  if hexNumber.length < 2 then HexParse.panicked
  else
    match goParseInt16 (hexNumber.drop 2) with
    | none => HexParse.failed
    | some n => HexParse.ok n

/-- The constant `initialLookBackBlocksCount` from parser.go line 14. -/
def initialLookBackBlocksCount : Int := 10

/-- Model of `Subscribe` (parser.go lines 138-146): the subscription map
`map[string]bool` is modelled as a finite set of addresses (the code only
ever stores `true` and tests key presence).  Returns the Go boolean result
together with the updated set. -/
def Subscribe (subscriptions : Finset String) (address : String) :
    Bool × Finset String :=
  if address ∈ subscriptions then (false, subscriptions)
  else (true, insert address subscriptions)

/-- Per-block match groups: the model of the Go map
`transactionsForAddresses` in `fetchTransactions` (parser.go lines
224-236).  `keys` records the addresses in order of first insertion (Go
map iteration order is unspecified; the model fixes this one order, which
only affects the interleaving of events of distinct addresses, never any
per-address content). -/
structure Groups where
  keys : List String
  txsFor : String → List Transaction

/-- The empty match-group map (`make(map[string][]Transaction)`). -/
def emptyGroups : Groups :=
  { keys := [], txsFor := fun _ => [] }

/-- Model of `transactionsForAddresses[a] = append(transactionsForAddresses[a], tx)`. -/
def addMatch (g : Groups) (a : String) (tx : Transaction) : Groups :=
  { keys := if a ∈ g.keys then g.keys else g.keys ++ [a],
    txsFor := fun a' => if a' = a then g.txsFor a ++ [tx] else g.txsFor a' }

/-- Model of `tx.BlockNumberDecimal = blockNumberDecimal` (parser.go line
228): the loop copy of the transaction with the decimal height filled in. -/
def stamp (n : Int) (tx : Transaction) : Transaction :=
  { tx with BlockNumberDecimal := n }

/-- Model of the per-transaction matching loop of `fetchTransactions`
(parser.go lines 226-236): for each transaction, if the sender or the
recipient is subscribed, stamp it with the decimal block number and append
it to the sender's group and, independently, the recipient's group. -/
def matchTransactions (subs : Finset String) (n : Int) :
    List Transaction → Groups → Groups
  | [], g => g
  | tx :: rest, g =>
    let g2 :=
      if tx.From ∈ subs ∨ tx.To ∈ subs then
        let tx2 := stamp n tx
        let gFrom := if tx.From ∈ subs then addMatch g tx.From tx2 else g
        if tx.To ∈ subs then addMatch gFrom tx.To tx2 else gFrom
      else g
    matchTransactions subs n rest g2

/-- Observable collaborator calls of the notify-then-save loop of
`fetchTransactions` (parser.go lines 238-245). -/
inductive Event where
  | notif (address : String) (txs : List Transaction)
  | save (address : String) (txs : List Transaction)
deriving DecidableEq

/-- Tests whether an event is a notification to the given address. -/
def isNotifTo (a : String) : Event → Bool
  | .notif a' _ => a' == a
  | _ => false

/-- Oracle for `Storage.SaveTransactions` failures for a generic `Storage`
implementation: `saveFails a = true` means the append for address `a`
reports an error (parser.go lines 241-244 only log it).  The repository's
`MemoryStorage.SaveTransactions` (storage.go lines 27-32) always appends
and returns `nil`, modelled by `noFail`. -/
def noFail : String → Bool := fun _ => false

/-- Effect of one `storage.SaveTransactions(a, txs)` call on the store's
per-address map (storage.go line 30 appends; a failing store appends
nothing). -/
def saveOne (saveFails : String → Bool) (storage : String → List Transaction)
    (a : String) (txs : List Transaction) : String → List Transaction :=
  if saveFails a then storage
  else fun a' => if a' = a then storage a' ++ txs else storage a'

/-- Model of the notify-then-save loop of `fetchTransactions` (parser.go
lines 238-245) over an explicit key list: for each address in turn, emit
the notification, then attempt the store append. -/
def flushKeys (saveFails : String → Bool) (g : Groups) :
    List String → (String → List Transaction) →
    (String → List Transaction) × List Event
  | [], storage => (storage, [])
  | a :: rest, storage =>
    let storage2 := saveOne saveFails storage a (g.txsFor a)
    let r := flushKeys saveFails g rest storage2
    (r.1, Event.notif a (g.txsFor a) :: Event.save a (g.txsFor a) :: r.2)

/-- The notify-then-save loop over all groups of one block. -/
def flushGroups (saveFails : String → Bool)
    (storage : String → List Transaction) (g : Groups) :
    (String → List Transaction) × List Event :=
  flushKeys saveFails g g.keys storage

/-- Outcome of a fallible step; `panicked` models an uncaught Go runtime
panic (which crashes the process). -/
inductive StepResult (α : Type) where
  | panicked
  | ok (a : α)
deriving DecidableEq

/-- Outcome of one `getBlockByNumber` call (parser.go lines 256-286): any
transport error, JSON-RPC error, non-map result shape or unmarshal
failure is returned as an error (`fetchErr`); otherwise the decoded block. -/
inductive FetchResult where
  | fetchErr
  | ok (b : Block)
deriving DecidableEq

/-- Model of one iteration of the height loop of `fetchTransactions`
(parser.go lines 211-246): fetch the block at height `h` (on error, skip),
parse its `Number` field (on error, skip; on a short string, panic), build
the match groups and run the notify-then-save loop. -/
def processHeight (saveFails : String → Bool) (chain : Int → FetchResult)
    (subs : Finset String) (storage : String → List Transaction) (h : Int) :
    StepResult ((String → List Transaction) × List Event) :=
  match chain h with
  | .fetchErr => .ok (storage, [])
  | .ok b =>
    match convertHexNumberToDecimal b.Number with
    | .panicked => .panicked
    | .failed => .ok (storage, [])
    | .ok n =>
      .ok (flushGroups saveFails storage (matchTransactions subs n b.Transactions emptyGroups))

/-- The list of transactions matched for address `a` at height `h`: the
per-address content of the block's match groups (empty when the fetch or
the number parse fails). -/
def heightDelta (chain : Int → FetchResult) (subs : Finset String)
    (a : String) (h : Int) : List Transaction :=
  match chain h with
  | .fetchErr => []
  | .ok b =>
    match convertHexNumberToDecimal b.Number with
    | .ok n => (matchTransactions subs n b.Transactions emptyGroups).txsFor a
    | _ => []

/-- The height loop of `fetchTransactions` over an explicit height list,
threading the store and concatenating the emitted events; a panic aborts
the whole pass (an uncaught panic crashes the Go process). -/
def runHeights (saveFails : String → Bool) (chain : Int → FetchResult)
    (subs : Finset String) :
    List Int → (String → List Transaction) →
    StepResult ((String → List Transaction) × List Event)
  | [], storage => .ok (storage, [])
  | h :: rest, storage =>
    match processHeight saveFails chain subs storage h with
    | .panicked => .panicked
    | .ok (storage2, ev) =>
      match runHeights saveFails chain subs rest storage2 with
      | .panicked => .panicked
      | .ok (storage3, ev2) => .ok (storage3, ev ++ ev2)

/-- The ascending height list `startBlock, ..., currentBlock` traversed by
`for i := startBlock; i <= currentBlock; i++` (empty when the start
exceeds the end). -/
def intRange (lo hi : Int) : List Int :=
  (List.range (hi + 1 - lo).toNat).map (fun (k : Nat) => lo + (k : Int))

/-- Model of one whole `fetchTransactions` pass (parser.go lines 197-253)
given the snapshots taken under the lock at its start (the copied
subscription set, `startBlock = lastProcessedBlock + 1` and the local copy
of `currentBlock`): run the height loop, then return the new store, the
new `lastProcessedBlock` (the snapshotted `currentBlock`, line 249) and
the emitted events. -/
def fetchTransactionsModel (saveFails : String → Bool)
    (chain : Int → FetchResult) (subs : Finset String)
    (lastProcessedBlock currentBlock : Int)
    (storage : String → List Transaction) :
    StepResult ((String → List Transaction) × Int × List Event) :=
  match runHeights saveFails chain subs
      (intRange (lastProcessedBlock + 1) currentBlock) storage with
  | .panicked => .panicked
  | .ok (storage2, ev) => .ok (storage2, currentBlock, ev)

/-- Model of `GetTransactions` (parser.go lines 149-151): a direct
delegation to the store's read operation. -/
def GetTransactionsModel (storage : String → List Transaction)
    (address : String) : List Transaction :=
  storage address

/-- Shape of one `eth_blockNumber` JSON-RPC exchange as seen by
`updateCurrentBlock` (parser.go lines 170-194): the request failed
(`rpcErr`), succeeded with a `Result` that is not a string (`nonString`,
on which the unchecked type assertion `resp.Result.(string)` panics), or
succeeded with the given string. -/
inductive RpcHeightResult where
  | rpcErr
  | nonString
  | str (s : String)
deriving DecidableEq

/-- Model of `updateCurrentBlock` (parser.go lines 170-194): on a request
error, log and return leaving `currentBlock` unchanged; on a non-string
result, panic at the type assertion; otherwise convert the hex string (a
short string panics inside the slice, a malformed one is logged and
skipped) and overwrite `currentBlock` on success. -/
def updateCurrentBlockModel (r : RpcHeightResult) (currentBlock : Int) :
    StepResult Int :=
  match r with
  | .rpcErr => .ok currentBlock
  | .nonString => .panicked
  | .str s =>
    match convertHexNumberToDecimal s with
    | .panicked => .panicked
    | .failed => .ok currentBlock
    | .ok n => .ok n

/-- The shared mutable fields of `EthParser` (parser.go lines 25-36)
relevant to the claims, plus the contents of its `MemoryStorage`. -/
structure EngineState where
  currentBlock : Int
  lastProcessedBlock : Int
  subscriptions : Finset String
  storage : String → List Transaction

/-- State of the whole engine between atomic transitions: the shared
fields, the snapshot held by an in-flight scan pass (subscription copy,
`startBlock`, local `currentBlock`, taken under the lock at parser.go
lines 200-207), and two observation logs: the completed pass ranges and
the collaborator events. -/
structure SysState where
  eng : EngineState
  pendingScan : Option (Finset String × Int × Int)
  passes : List (Int × Int)
  evLog : List Event

/-- Atomic transitions of the engine: a height-refresh tick with a given
RPC outcome, a `Subscribe` call, the locked snapshot at the start of a
scan pass, and the rest of the scan pass (the height loop plus the final
locked write of `lastProcessedBlock`, parser.go lines 209-250; the loop
reads no shared engine state, so running it inside the `scanEnd`
transition is observationally equivalent to the interleaved original). -/
inductive EngAction where
  | refresh (r : RpcHeightResult)
  | subscribeA (a : String)
  | scanStart
  | scanEnd
deriving DecidableEq

/-- One atomic transition of the engine. -/
def step (saveFails : String → Bool) (chain : Int → FetchResult)
    (s : SysState) : EngAction → StepResult SysState
  | .refresh r =>
    match updateCurrentBlockModel r s.eng.currentBlock with
    | .panicked => .panicked
    | .ok c => .ok { s with eng := { s.eng with currentBlock := c } }
  | .subscribeA a =>
    .ok { s with eng := { s.eng with
            subscriptions := (Subscribe s.eng.subscriptions a).2 } }
  | .scanStart =>
    let snap := (s.eng.subscriptions, s.eng.lastProcessedBlock + 1,
                 s.eng.currentBlock)
    .ok { s with pendingScan := some snap }
  | .scanEnd =>
    match s.pendingScan with
    | none => .ok s
    | some snap =>
      match runHeights saveFails chain snap.1 (intRange snap.2.1 snap.2.2)
          s.eng.storage with
      | .panicked => .panicked
      | .ok (storage2, ev) =>
        let eng2 :=
          { s.eng with storage := storage2, lastProcessedBlock := snap.2.2 }
        .ok { eng := eng2,
              pendingScan := none,
              passes := s.passes ++ [(snap.2.1, snap.2.2)],
              evLog := s.evLog ++ ev }

/-- Run a sequence of atomic transitions; a panic aborts the run (an
uncaught panic in either background goroutine crashes the Go process). -/
def run (saveFails : String → Bool) (chain : Int → FetchResult)
    (s : SysState) : List EngAction → StepResult SysState
  | [] => .ok s
  | a :: rest =>
    match step saveFails chain s a with
    | .panicked => .panicked
    | .ok s2 => run saveFails chain s2 rest

/-- Model of construction (`NewEthParser` calling
`initializeCurrentBlock`, parser.go lines 57-82 and 154-167): from the
zero value, perform one synchronous height refresh with outcome `r`, then
set `lastProcessedBlock` to the current block minus the lookback, clamped
at zero. -/
def initSys (r : RpcHeightResult) : StepResult SysState :=
  match updateCurrentBlockModel r 0 with
  | .panicked => .panicked
  | .ok c =>
    let lp := c - initialLookBackBlocksCount
    .ok { eng := { currentBlock := c,
                   lastProcessedBlock := if lp < 0 then 0 else lp,
                   subscriptions := ∅,
                   storage := fun _ => [] },
          pendingScan := none, passes := [], evLog := [] }

/-- Construction followed by a transition sequence. -/
def runFromInit (saveFails : String → Bool) (chain : Int → FetchResult)
    (r : RpcHeightResult) (acts : List EngAction) : StepResult SysState :=
  match initSys r with
  | .panicked => .panicked
  | .ok s0 => run saveFails chain s0 acts

/-- Decides whether, along a run, every successful height refresh writes a
value no smaller than the `currentBlock` it overwrites (a chain head that
never moves backwards). -/
def monoRunB (saveFails : String → Bool) (chain : Int → FetchResult) :
    SysState → List EngAction → Bool
  | s, [] => (fun _ => true) s
  | s, act :: rest =>
    let stepOk : Bool :=
      match act with
      | .refresh r =>
        match updateCurrentBlockModel r s.eng.currentBlock with
        | .ok v => decide (s.eng.currentBlock ≤ v)
        | .panicked => true
      | _ => true
    match step saveFails chain s act with
    | .panicked => stepOk
    | .ok s2 => stepOk && monoRunB saveFails chain s2 rest

/-- Inductive invariant of the height state: `lastProcessedBlock` is below
`currentBlock`, any in-flight snapshot is between them and past all
completed passes, every completed pass ends at or below
`lastProcessedBlock`, and completed passes are separated (each strictly
precedes the start of every later one). -/
def SysInv (s : SysState) : Prop :=
  s.eng.lastProcessedBlock ≤ s.eng.currentBlock ∧
  (∀ sub st e, s.pendingScan = some (sub, st, e) →
      s.eng.lastProcessedBlock ≤ e ∧ e ≤ s.eng.currentBlock ∧
      ∀ p ∈ s.passes, p.2 < st) ∧
  (∀ p ∈ s.passes, p.2 ≤ s.eng.lastProcessedBlock) ∧
  s.passes.Pairwise (fun p q => p.2 < q.1)

/-- Projection: the `lastProcessedBlock` of a run outcome. -/
def lastOf (r : StepResult SysState) : Option Int :=
  match r with
  | .panicked => none
  | .ok s => some s.eng.lastProcessedBlock

/-- Projection: the `(currentBlock, lastProcessedBlock)` pair of a run
outcome. -/
def heightsOf (r : StepResult SysState) : Option (Int × Int) :=
  match r with
  | .panicked => none
  | .ok s => some (s.eng.currentBlock, s.eng.lastProcessedBlock)

/-- Projection: the completed pass ranges of a run outcome. -/
def passesOf (r : StepResult SysState) : Option (List (Int × Int)) :=
  match r with
  | .panicked => none
  | .ok s => some s.passes

/-- C7: for every address `a` and subscription set, `Subscribe a` returns
`true` and inserts `a` when `a` is absent, returns `false` leaving the set
unchanged when present; hence subscribing twice returns `true` then
`false` and the set's size grows by exactly one. -/
theorem subscribe_idempotent (subs : Finset String) (a : String) :
    (a ∉ subs → Subscribe subs a = (true, insert a subs)) ∧
    (a ∈ subs → Subscribe subs a = (false, subs)) ∧
    (a ∉ subs →
      (Subscribe subs a).1 = true ∧
      (Subscribe (Subscribe subs a).2 a).1 = false ∧
      (Subscribe (Subscribe subs a).2 a).2.card = subs.card + 1) := by
  refine ⟨fun h => ?_, fun h => ?_, fun h => ?_⟩
  · simp [Subscribe, h]
  · simp [Subscribe, h]
  · have h1 : Subscribe subs a = (true, insert a subs) := by simp [Subscribe, h]
    have hmem : a ∈ insert a subs := Finset.mem_insert_self a subs
    refine ⟨by simp [h1], ?_, ?_⟩
    · rw [h1]
      simp [Subscribe, hmem]
    · rw [h1]
      simp [Subscribe, hmem, Finset.card_insert_of_not_mem h]

/-- Witness for `subscribe_idempotent` at the empty set and address "0x1". -/
theorem subscribe_idempotent_witness :
    (Subscribe ∅ "0x1").1 = true ∧
    (Subscribe (Subscribe ∅ "0x1").2 "0x1").1 = false ∧
    (Subscribe (Subscribe ∅ "0x1").2 "0x1").2.card = 1 := by
  have h := (subscribe_idempotent ∅ "0x1").2.2 (by decide)
  exact ⟨h.1, h.2.1, by simpa using h.2.2⟩

/-- Well-formedness of a match-group map, as maintained by the Go map
`transactionsForAddresses`: the key list has no duplicates, absent
addresses map to the empty list, and present addresses map to a nonempty
list (a key is only created by appending a transaction). -/
def WFG (g : Groups) : Prop :=
  g.keys.Nodup ∧ (∀ a, a ∉ g.keys → g.txsFor a = []) ∧
    ∀ a ∈ g.keys, g.txsFor a ≠ []

/-- All transactions recorded in the groups carry the given decimal block
number. -/
def GroupsStamped (n : Int) (g : Groups) : Prop :=
  ∀ a tx, tx ∈ g.txsFor a → tx.BlockNumberDecimal = n

/-- Projection: the events of one height step. -/
def eventsOf (r : StepResult ((String → List Transaction) × List Event)) :
    Option (List Event) :=
  match r with
  | .panicked => none
  | .ok (_, ev) => some ev

/-- Projection: the per-address store contents after a scan pass. -/
def passStorageOf
    (r : StepResult ((String → List Transaction) × Int × List Event))
    (a : String) : List Transaction :=
  match r with
  | .panicked => []
  | .ok (st, _, _) => st a

/-- A chain client on which every block fetch fails. -/
def chainFail : Int → FetchResult := fun _ => FetchResult.fetchErr

/-- Concrete transaction used by witnesses (the repository test's block-1
transaction shape, placed in block 5). -/
def txW : Transaction :=
  { Hash := "0xabc", From := "0x1", To := "0x2", Value := "100",
    BlockNumber := "0x5", BlockNumberDecimal := 0 }

/-- Concrete transaction for block 6 of the ordering scenario. -/
def txW6 : Transaction :=
  { Hash := "0xdef", From := "0x1", To := "0x3", Value := "200",
    BlockNumber := "0x6", BlockNumberDecimal := 0 }

/-- Concrete block at height 5. -/
def blockW5 : Block := { Number := "0x5", Transactions := [txW] }

/-- Concrete block at height 6. -/
def blockW6 : Block := { Number := "0x6", Transactions := [txW6] }

/-- Concrete chain holding blocks 5 and 6. -/
def chainW : Int → FetchResult := fun h =>
  if h = 5 then FetchResult.ok blockW5
  else if h = 6 then FetchResult.ok blockW6
  else FetchResult.fetchErr

/-- Concrete subscription set holding the scenario's two addresses. -/
def subsW : Finset String := insert "0x1" {"0x2"}

/-- Events emitted by the concrete height-5 step. -/
def evW : List Event :=
  match processHeight noFail chainW subsW (fun _ => []) 5 with
  | .panicked => []
  | .ok (_, ev) => ev

/-- Concrete block whose `number` field is not valid hex (but at least two
characters long). -/
def blockBad : Block := { Number := "0xzz", Transactions := [txW] }

/-- Concrete chain holding the malformed-number block at height 1. -/
def chainBad : Int → FetchResult := fun h =>
  if h = 1 then FetchResult.ok blockBad
  else FetchResult.fetchErr

/-- Concrete block whose own `number` field decodes to 7, served at a
different requested height. -/
def blockN7 : Block := { Number := "0x7", Transactions := [txW] }

/-- Concrete chain serving `blockN7` at requested height 3. -/
def chainN7 : Int → FetchResult := fun h =>
  if h = 3 then FetchResult.ok blockN7
  else FetchResult.fetchErr

/-- Initial refresh outcome for the trace scenarios: height 15. -/
def rInitW : RpcHeightResult := RpcHeightResult.str "0xf"

/-- Trace prefix: one complete scan tick. -/
def actsTick : List EngAction := [EngAction.scanStart, EngAction.scanEnd]

/-- Trace for the monotonicity counterexamples: a scan tick, a refresh
that lowers the head to 3 (a non-negative client value), then another
scan tick. -/
def actsDrop : List EngAction :=
  [EngAction.scanStart, EngAction.scanEnd,
   EngAction.refresh (RpcHeightResult.str "0x3"),
   EngAction.scanStart, EngAction.scanEnd]

/-- Trace for the invariant counterexample: a scan tick, then a refresh
that lowers the head below the processed height. -/
def actsInv : List EngAction :=
  [EngAction.scanStart, EngAction.scanEnd,
   EngAction.refresh (RpcHeightResult.str "0x3")]

/-- Trace for the retry counterexample: a pass over 6..15 (all fetches
fail), a refresh down to 3, an empty pass, a refresh up to 20, and a pass
over 4..20 that re-covers the failed heights. -/
def actsRetry : List EngAction :=
  [EngAction.scanStart, EngAction.scanEnd,
   EngAction.refresh (RpcHeightResult.str "0x3"),
   EngAction.scanStart, EngAction.scanEnd,
   EngAction.refresh (RpcHeightResult.str "0x14"),
   EngAction.scanStart, EngAction.scanEnd]

/-- Monotone trace for the amended-claim witnesses: a scan tick, a refresh
up to 20, another scan tick. -/
def actsMono : List EngAction :=
  [EngAction.scanStart, EngAction.scanEnd,
   EngAction.refresh (RpcHeightResult.str "0x14"),
   EngAction.scanStart, EngAction.scanEnd]

/-- Second half of the monotone trace: the refresh to 20 and one scan
tick. -/
def actsGrow : List EngAction :=
  [EngAction.refresh (RpcHeightResult.str "0x14"),
   EngAction.scanStart, EngAction.scanEnd]

/-- Membership in the loop's height list is exactly the loop bounds. -/
theorem mem_intRange {lo hi h : Int} :
    h ∈ intRange lo hi ↔ lo ≤ h ∧ h ≤ hi := by
  simp only [intRange, List.mem_map, List.mem_range]
  constructor
  · rintro ⟨k, hk, rfl⟩
    omega
  · rintro ⟨h1, h2⟩
    exact ⟨(h - lo).toNat, by omega, by omega⟩

/-- The loop's height list is strictly ascending. -/
theorem intRange_ascending (lo hi : Int) :
    List.Chain' (fun x y => x < y) (intRange lo hi) := by
  unfold intRange
  apply List.Pairwise.chain'
  exact List.Pairwise.map _
    (fun a b hab => by show lo + (a : Int) < lo + (b : Int); omega)
    (List.pairwise_lt_range _)

/-- The events of the notify-then-save loop: one notification immediately
followed by one save attempt per key, in key order, independent of the
store contents and of save failures. -/
theorem flushKeys_events (f : String → Bool) (g : Groups) (ks : List String) :
    ∀ storage, (flushKeys f g ks storage).2 =
      (ks.map (fun a =>
        [Event.notif a (g.txsFor a), Event.save a (g.txsFor a)])).flatten := by
  induction ks with
  | nil => intro storage; rfl
  | cons a rest ih => intro storage; simp [flushKeys, ih]

/-- Store contents after the notify-then-save loop with the repository's
never-failing `MemoryStorage`: each listed address receives its group
appended, every other address is untouched. -/
theorem flushKeys_storage_noFail (g : Groups) (ks : List String) :
    ks.Nodup → ∀ storage a, (flushKeys noFail g ks storage).1 a =
      if a ∈ ks then storage a ++ g.txsFor a else storage a := by
  induction ks with
  | nil => intro _ storage a; simp [flushKeys]
  | cons k rest ih =>
    intro hnd storage a
    obtain ⟨hk, hrest⟩ := List.nodup_cons.mp hnd
    simp only [flushKeys]
    rw [ih hrest]
    by_cases hmem : a ∈ rest
    · have hak : a ≠ k := fun h => hk (h ▸ hmem)
      simp [hmem, saveOne, noFail, hak, List.mem_cons]
    · by_cases hak : a = k
      · subst hak
        simp [hmem, saveOne, noFail]
      · simp [hmem, saveOne, noFail, hak, List.mem_cons]

/-- The empty group map is well-formed. -/
theorem WFG_emptyGroups : WFG emptyGroups := by
  refine ⟨List.nodup_nil, fun a _ => rfl, fun a ha => ?_⟩
  simp [emptyGroups] at ha

/-- Appending a transaction to a group preserves well-formedness. -/
theorem WFG_addMatch (g : Groups) (a : String) (tx : Transaction)
    (hg : WFG g) : WFG (addMatch g a tx) := by
  obtain ⟨hnd, habs, hpres⟩ := hg
  refine ⟨?_, ?_, ?_⟩
  · simp only [addMatch]
    by_cases h : a ∈ g.keys
    · simpa [h] using hnd
    · simp [h, List.nodup_append, hnd, List.disjoint_singleton, h]
  · intro a' ha'
    simp only [addMatch] at ha' ⊢
    by_cases h : a ∈ g.keys
    · simp only [if_pos h] at ha'
      have hne : a' ≠ a := fun he => ha' (he ▸ h)
      simp [hne, habs a' ha']
    · simp only [if_neg h, List.mem_append, List.mem_singleton] at ha'
      push_neg at ha'
      simp [ha'.2, habs a' ha'.1]
  · intro a' ha'
    simp only [addMatch] at ha' ⊢
    by_cases he : a' = a
    · subst he
      simp
    · have : a' ∈ g.keys := by
        by_cases h : a ∈ g.keys
        · simpa [h] using ha'
        · simp only [if_neg h, List.mem_append, List.mem_singleton] at ha'
          exact ha'.resolve_right he
      simp [he, hpres a' this]

/-- The matching loop preserves group well-formedness. -/
theorem WFG_matchTransactions (subs : Finset String) (n : Int) :
    ∀ (txs : List Transaction) (g : Groups), WFG g →
      WFG (matchTransactions subs n txs g) := by
  intro txs
  induction txs with
  | nil => intro g hg; exact hg
  | cons tx rest ih =>
    intro g hg
    simp only [matchTransactions]
    apply ih
    by_cases h1 : tx.From ∈ subs <;> by_cases h2 : tx.To ∈ subs
    · simpa [h1, h2] using WFG_addMatch _ _ _ (WFG_addMatch _ _ _ hg)
    · simpa [h1, h2] using WFG_addMatch _ _ _ hg
    · simpa [h1, h2] using WFG_addMatch _ _ _ hg
    · simpa [h1, h2] using hg

/-- Store contents after flushing one block's groups with the repository's
never-failing store: every address receives exactly its match group. -/
theorem flushGroups_storage_noFail (g : Groups) (hw : WFG g)
    (storage : String → List Transaction) (a : String) :
    (flushGroups noFail storage g).1 a = storage a ++ g.txsFor a := by
  rw [flushGroups, flushKeys_storage_noFail g g.keys hw.1]
  by_cases h : a ∈ g.keys
  · simp [h]
  · simp [h, hw.2.1 a h]

/-- Group membership is preserved by further appends. -/
theorem addMatch_mono {g : Groups} {a : String} {tx : Transaction}
    {a' : String} {x : Transaction} (hx : x ∈ g.txsFor a') :
    x ∈ (addMatch g a tx).txsFor a' := by
  simp only [addMatch]
  by_cases h : a' = a
  · subst h
    rw [if_pos rfl]
    exact List.mem_append_left _ hx
  · simpa [h] using hx

/-- Group membership is preserved by the rest of the matching loop. -/
theorem matchTransactions_mono (subs : Finset String) (n : Int) :
    ∀ (txs : List Transaction) {g : Groups} {a : String} {x : Transaction},
      x ∈ g.txsFor a → x ∈ (matchTransactions subs n txs g).txsFor a := by
  intro txs
  induction txs with
  | nil => intro g a x hx; exact hx
  | cons tx rest ih =>
    intro g a x hx
    simp only [matchTransactions]
    apply ih
    by_cases h1 : tx.From ∈ subs <;> by_cases h2 : tx.To ∈ subs
    · simpa [h1, h2] using addMatch_mono (addMatch_mono hx)
    · simpa [h1, h2] using addMatch_mono hx
    · simpa [h1, h2] using addMatch_mono hx
    · simpa [h1, h2] using hx

/-- The appended transaction is in its group. -/
theorem addMatch_mem (g : Groups) (a : String) (tx : Transaction) :
    tx ∈ (addMatch g a tx).txsFor a := by
  simp [addMatch]

/-- Matching records each transaction with a subscribed sender, stamped,
in the sender's group (parser.go lines 229-231). -/
theorem matchTransactions_mem_from (subs : Finset String) (n : Int) :
    ∀ (txs : List Transaction) (g : Groups) (tx : Transaction),
      tx ∈ txs → tx.From ∈ subs →
      stamp n tx ∈ (matchTransactions subs n txs g).txsFor tx.From := by
  intro txs
  induction txs with
  | nil => intro g tx h; exact absurd h (List.not_mem_nil tx)
  | cons t rest ih =>
    intro g tx hmem hsub
    rcases List.mem_cons.mp hmem with heq | hrest
    · subst heq
      simp only [matchTransactions]
      apply matchTransactions_mono
      have hor : tx.From ∈ subs ∨ tx.To ∈ subs := Or.inl hsub
      by_cases h2 : tx.To ∈ subs
      · simpa [hor, hsub, h2] using addMatch_mono (addMatch_mem _ _ _)
      · simpa [hor, hsub, h2] using addMatch_mem _ _ _
    · simp only [matchTransactions]
      exact ih _ tx hrest hsub

/-- Matching records each transaction with a subscribed recipient,
stamped, in the recipient's group (parser.go lines 232-234). -/
theorem matchTransactions_mem_to (subs : Finset String) (n : Int) :
    ∀ (txs : List Transaction) (g : Groups) (tx : Transaction),
      tx ∈ txs → tx.To ∈ subs →
      stamp n tx ∈ (matchTransactions subs n txs g).txsFor tx.To := by
  intro txs
  induction txs with
  | nil => intro g tx h; exact absurd h (List.not_mem_nil tx)
  | cons t rest ih =>
    intro g tx hmem hsub
    rcases List.mem_cons.mp hmem with heq | hrest
    · subst heq
      simp only [matchTransactions]
      apply matchTransactions_mono
      have hor : tx.From ∈ subs ∨ tx.To ∈ subs := Or.inr hsub
      by_cases h1 : tx.From ∈ subs
      · simpa [hor, hsub, h1] using addMatch_mem _ _ _
      · simpa [hor, hsub, h1] using addMatch_mem _ _ _
    · simp only [matchTransactions]
      exact ih _ tx hrest hsub

/-- Appending a stamped transaction preserves the stamping invariant. -/
theorem GroupsStamped_addMatch {n : Int} {g : Groups} {a : String}
    {tx : Transaction} (hg : GroupsStamped n g)
    (htx : tx.BlockNumberDecimal = n) :
    GroupsStamped n (addMatch g a tx) := by
  intro a' x hx
  simp only [addMatch] at hx
  by_cases h : a' = a
  · simp only [if_pos h] at hx
    rcases List.mem_append.mp hx with h1 | h1
    · exact hg a x h1
    · rw [List.mem_singleton.mp h1]
      exact htx
  · simp only [if_neg h] at hx
    exact hg a' x hx

/-- Every transaction the matching loop records carries the block's
decimal number. -/
theorem GroupsStamped_matchTransactions (subs : Finset String) (n : Int) :
    ∀ (txs : List Transaction) (g : Groups), GroupsStamped n g →
      GroupsStamped n (matchTransactions subs n txs g) := by
  intro txs
  induction txs with
  | nil => intro g hg; exact hg
  | cons tx rest ih =>
    intro g hg
    simp only [matchTransactions]
    apply ih
    have hst : (stamp n tx).BlockNumberDecimal = n := rfl
    by_cases h1 : tx.From ∈ subs <;> by_cases h2 : tx.To ∈ subs
    · simpa [h1, h2] using
        GroupsStamped_addMatch (GroupsStamped_addMatch hg hst) hst
    · simpa [h1, h2] using GroupsStamped_addMatch hg hst
    · simpa [h1, h2] using GroupsStamped_addMatch hg hst
    · simpa [h1, h2] using hg

/-- The empty group map is trivially stamped. -/
theorem GroupsStamped_emptyGroups (n : Int) : GroupsStamped n emptyGroups := by
  intro a tx hx
  simp [emptyGroups] at hx

/-- One height step with the never-failing store appends exactly the
height's match groups to every address. -/
theorem processHeight_storage_noFail (chain : Int → FetchResult)
    (subs : Finset String) (st : String → List Transaction) (h : Int)
    (st' : String → List Transaction) (ev : List Event)
    (hp : processHeight noFail chain subs st h = .ok (st', ev)) (a : String) :
    st' a = st a ++ heightDelta chain subs a h := by
  unfold processHeight at hp
  unfold heightDelta
  cases hcb : chain h with
  | fetchErr =>
    simp only [hcb] at hp ⊢
    obtain ⟨h1, -⟩ := Prod.mk.injEq .. ▸ StepResult.ok.inj hp
    simp [← h1]
  | ok b =>
    simp only [hcb] at hp ⊢
    cases hx : convertHexNumberToDecimal b.Number with
    | panicked => simp [hx] at hp
    | failed =>
      simp only [hx] at hp ⊢
      obtain ⟨h1, -⟩ := Prod.mk.injEq .. ▸ StepResult.ok.inj hp
      simp [← h1]
    | ok n =>
      simp only [hx] at hp ⊢
      obtain ⟨h1, -⟩ := Prod.mk.injEq .. ▸ StepResult.ok.inj hp
      rw [← h1]
      exact flushGroups_storage_noFail _
        (WFG_matchTransactions subs n b.Transactions emptyGroups
          WFG_emptyGroups) st a

/-- The events of one height step do not depend on the store contents or
on save failures. -/
theorem processHeight_events_indep (f f2 : String → Bool)
    (chain : Int → FetchResult) (subs : Finset String)
    (st st2 : String → List Transaction) (h : Int) :
    eventsOf (processHeight f chain subs st h) =
      eventsOf (processHeight f2 chain subs st2 h) := by
  unfold processHeight
  cases chain h with
  | fetchErr => rfl
  | ok b =>
    cases hx : convertHexNumberToDecimal b.Number with
    | panicked => simp [hx]
    | failed => simp [hx, eventsOf]
    | ok n =>
      simp only [hx, eventsOf, flushGroups, flushKeys_events]

/-- The height loop with the never-failing store appends, per address, the
concatenation of the per-height match groups in height order. -/
theorem runHeights_storage_noFail (chain : Int → FetchResult)
    (subs : Finset String) :
    ∀ (hs : List Int) (st st' : String → List Transaction) (ev : List Event),
      runHeights noFail chain subs hs st = .ok (st', ev) →
      ∀ a, st' a = st a ++ (hs.map (heightDelta chain subs a)).flatten := by
  intro hs
  induction hs with
  | nil =>
    intro st st' ev hp a
    obtain ⟨h1, -⟩ := Prod.mk.injEq .. ▸ StepResult.ok.inj hp
    simp [← h1]
  | cons h rest ih =>
    intro st st' ev hp a
    simp only [runHeights] at hp
    cases hph : processHeight noFail chain subs st h with
    | panicked => simp [hph] at hp
    | ok pr =>
      obtain ⟨st2, ev1⟩ := pr
      simp only [hph] at hp
      cases hr : runHeights noFail chain subs rest st2 with
      | panicked => simp [hr] at hp
      | ok pr2 =>
        obtain ⟨st3, ev2⟩ := pr2
        simp only [hr] at hp
        obtain ⟨h1, -⟩ := Prod.mk.injEq .. ▸ StepResult.ok.inj hp
        rw [← h1]
        rw [ih st2 st3 ev2 hr a,
            processHeight_storage_noFail chain subs st h st2 ev1 hph a]
        simp

/-- A whole scan pass with the never-failing store: the returned
`lastProcessedBlock` is the snapshotted `currentBlock`, and every
address's stored list grows by the per-height match groups concatenated in
ascending height order. -/
theorem fetchTransactionsModel_spec (chain : Int → FetchResult)
    (subs : Finset String) (lastB cur : Int)
    (st st' : String → List Transaction) (lp : Int) (ev : List Event)
    (hp : fetchTransactionsModel noFail chain subs lastB cur st =
            .ok (st', lp, ev)) :
    lp = cur ∧ ∀ a, st' a =
      st a ++ ((intRange (lastB + 1) cur).map (heightDelta chain subs a)).flatten := by
  unfold fetchTransactionsModel at hp
  cases hr : runHeights noFail chain subs (intRange (lastB + 1) cur) st with
  | panicked => simp [hr] at hp
  | ok pr =>
    obtain ⟨st2, ev2⟩ := pr
    simp only [hr] at hp
    obtain ⟨h1, h2⟩ := Prod.mk.injEq .. ▸ StepResult.ok.inj hp
    obtain ⟨h3, -⟩ := Prod.mk.injEq .. ▸ h2
    refine ⟨h3.symm, fun a => ?_⟩
    rw [← h1]
    exact runHeights_storage_noFail chain subs _ st st2 ev2 hr a

/-- The stamped transaction of a subscribed sender is in the sender's
height delta. -/
theorem heightDelta_mem_from (chain : Int → FetchResult)
    (subs : Finset String) (h : Int) (b : Block) (n : Int) (tx : Transaction)
    (hb : chain h = .ok b) (hn : convertHexNumberToDecimal b.Number = .ok n)
    (htx : tx ∈ b.Transactions) (hsub : tx.From ∈ subs) :
    stamp n tx ∈ heightDelta chain subs tx.From h := by
  unfold heightDelta
  simp only [hb, hn]
  exact matchTransactions_mem_from subs n b.Transactions emptyGroups tx htx hsub

/-- The stamped transaction of a subscribed recipient is in the
recipient's height delta. -/
theorem heightDelta_mem_to (chain : Int → FetchResult)
    (subs : Finset String) (h : Int) (b : Block) (n : Int) (tx : Transaction)
    (hb : chain h = .ok b) (hn : convertHexNumberToDecimal b.Number = .ok n)
    (htx : tx ∈ b.Transactions) (hsub : tx.To ∈ subs) :
    stamp n tx ∈ heightDelta chain subs tx.To h := by
  unfold heightDelta
  simp only [hb, hn]
  exact matchTransactions_mem_to subs n b.Transactions emptyGroups tx htx hsub

/-- C1: for every scan pass, every successfully fetched block whose number
parses, and every transaction in it: if the sender is subscribed the
stamped transaction is appended to the sender's stored list, and
independently, if the recipient is subscribed it is appended to the
recipient's stored list; when both are subscribed, after the pass both
`Transactions(From)` and `Transactions(To)` contain it, once per side. -/
theorem scan_matches_both_sides (chain : Int → FetchResult)
    (subs : Finset String) (lastB cur : Int)
    (st st' : String → List Transaction) (lp : Int) (ev : List Event)
    (h : Int) (b : Block) (n : Int) (tx : Transaction)
    (hrun : fetchTransactionsModel noFail chain subs lastB cur st =
              .ok (st', lp, ev))
    (hcov : lastB + 1 ≤ h ∧ h ≤ cur)
    (hb : chain h = .ok b)
    (hn : convertHexNumberToDecimal b.Number = .ok n)
    (htx : tx ∈ b.Transactions) :
    (tx.From ∈ subs →
        stamp n tx ∈ GetTransactionsModel st' tx.From) ∧
    (tx.To ∈ subs →
        stamp n tx ∈ GetTransactionsModel st' tx.To) := by
  obtain ⟨-, hst⟩ := fetchTransactionsModel_spec _ _ _ _ _ _ _ _ hrun
  have hmem : h ∈ intRange (lastB + 1) cur := mem_intRange.mpr hcov
  constructor
  · intro hsub
    unfold GetTransactionsModel
    rw [hst tx.From]
    apply List.mem_append_right
    apply List.mem_flatten.mpr
    exact ⟨_, List.mem_map_of_mem _ hmem,
           heightDelta_mem_from _ _ _ _ _ _ hb hn htx hsub⟩
  · intro hsub
    unfold GetTransactionsModel
    rw [hst tx.To]
    apply List.mem_append_right
    apply List.mem_flatten.mpr
    exact ⟨_, List.mem_map_of_mem _ hmem,
           heightDelta_mem_to _ _ _ _ _ _ hb hn htx hsub⟩

/-- Witness for `scan_matches_both_sides`: a pass over heights 5..5 on the
concrete chain, with both the sender "0x1" and the recipient "0x2"
subscribed, stores the stamped transaction under both addresses. -/
theorem scan_matches_both_sides_witness :
    stamp 5 txW ∈ passStorageOf
      (fetchTransactionsModel noFail chainW subsW 4 5 (fun _ => [])) "0x1" ∧
    stamp 5 txW ∈ passStorageOf
      (fetchTransactionsModel noFail chainW subsW 4 5 (fun _ => [])) "0x2" := by
  have h := scan_matches_both_sides chainW subsW 4 5 (fun _ => []) _ _ _
    5 blockW5 5 txW rfl (by decide) (by decide) (by decide) (by decide)
  exact ⟨h.1 (by decide), h.2 (by decide)⟩

/-- C9 part: the heights of one scan pass are traversed in strictly
ascending order, and in the two-block scenario (one matching transaction
for `Z` in each of blocks 5 and 6, pass covering 5..6) the store returns
the block-5 transaction before the block-6 one, matching insertion
order. -/
theorem scan_height_ordering :
    (∀ lo hi : Int, List.Chain' (fun x y => x < y) (intRange lo hi)) ∧
    (∀ (chain : Int → FetchResult) (subs : Finset String)
       (st : String → List Transaction) (Z : String) (t5 t6 : Transaction)
       (st' : String → List Transaction) (lp : Int) (ev : List Event),
      heightDelta chain subs Z 5 = [t5] →
      heightDelta chain subs Z 6 = [t6] →
      fetchTransactionsModel noFail chain subs 4 6 st = .ok (st', lp, ev) →
      GetTransactionsModel st' Z = GetTransactionsModel st Z ++ [t5, t6]) := by
  constructor
  · exact intRange_ascending
  · intro chain subs st Z t5 t6 st' lp ev h5 h6 hrun
    obtain ⟨-, hst⟩ := fetchTransactionsModel_spec _ _ _ _ _ _ _ _ hrun
    unfold GetTransactionsModel
    rw [hst Z, show intRange (4 + 1) 6 = [5, 6] from by decide]
    simp [h5, h6]

/-- Witness for `scan_height_ordering`: the concrete two-block chain with
address "0x1" subscribed yields its two stamped transactions in height
order 5 then 6. -/
theorem scan_height_ordering_witness :
    passStorageOf
      (fetchTransactionsModel noFail chainW subsW 4 6 (fun _ => [])) "0x1" =
      [stamp 5 txW, stamp 6 txW6] := by
  have h := scan_height_ordering.2 chainW subsW (fun _ => []) "0x1"
    (stamp 5 txW) (stamp 6 txW6) _ _ _ (by decide) (by decide) rfl
  simpa [GetTransactionsModel, passStorageOf] using h

/-- A notification event emitted by the notify-then-save loop always
carries exactly that address's match group. -/
theorem flushEvents_notif_payload (g : Groups) (ks : List String)
    (a : String) (txs : List Transaction)
    (hmem : Event.notif a txs ∈
      (ks.map (fun k =>
        [Event.notif k (g.txsFor k), Event.save k (g.txsFor k)])).flatten) :
    txs = g.txsFor a := by
  obtain ⟨l, hl, hel⟩ := List.mem_flatten.mp hmem
  obtain ⟨k, -, rfl⟩ := List.mem_map.mp hl
  rcases List.mem_cons.mp hel with he | he
  · obtain ⟨rfl, rfl⟩ := Event.notif.inj he
    rfl
  · rcases List.mem_cons.mp he with he2 | he2
    · exact absurd he2 (by simp)
    · exact absurd he2 (List.not_mem_nil _)

/-- C10: matched transactions are stamped with the height parsed from the
block's own `number` field, independent of the requested height `h` of
the loop iteration (both in the stored deltas and in every notification
payload); and when the fetch succeeded but the `number` field fails to
parse, the whole block is skipped: no store change and no events. -/
theorem stamping_uses_block_number :
    (∀ (f : String → Bool) (chain : Int → FetchResult) (subs : Finset String)
       (st : String → List Transaction) (h : Int) (b : Block) (n : Int)
       (st' : String → List Transaction) (ev : List Event),
      chain h = .ok b →
      convertHexNumberToDecimal b.Number = .ok n →
      processHeight f chain subs st h = .ok (st', ev) →
      (∀ a tx, tx ∈ heightDelta chain subs a h →
          tx.BlockNumberDecimal = n) ∧
      (∀ a txs tx, Event.notif a txs ∈ ev → tx ∈ txs →
          tx.BlockNumberDecimal = n)) ∧
    (∀ (f : String → Bool) (chain : Int → FetchResult) (subs : Finset String)
       (st : String → List Transaction) (h : Int) (b : Block),
      chain h = .ok b →
      convertHexNumberToDecimal b.Number = .failed →
      processHeight f chain subs st h = .ok (st, [])) := by
  constructor
  · intro f chain subs st h b n st' ev hb hn hp
    have hstamp :
        GroupsStamped n (matchTransactions subs n b.Transactions emptyGroups) :=
      GroupsStamped_matchTransactions subs n b.Transactions emptyGroups
        (GroupsStamped_emptyGroups n)
    constructor
    · intro a tx htx
      unfold heightDelta at htx
      simp only [hb, hn] at htx
      exact hstamp a tx htx
    · intro a txs tx hev htx
      unfold processHeight at hp
      simp only [hb, hn] at hp
      obtain ⟨-, h2⟩ := Prod.mk.injEq .. ▸ StepResult.ok.inj hp
      rw [← h2] at hev
      rw [flushKeys_events] at hev
      rw [flushEvents_notif_payload _ _ _ _ hev] at htx
      exact hstamp a tx htx
  · intro f chain subs st h b hb hn
    unfold processHeight
    simp only [hb, hn]

/-- Witness for `stamping_uses_block_number`: a block whose own `number`
field decodes to 7, served at requested height 3, stamps its matches
with 7 (first conjunct), and the malformed-number block is skipped
(second conjunct applied at `chainBad`). -/
theorem stamping_uses_block_number_witness :
    ((stamp 7 txW).BlockNumberDecimal = 7) ∧
    processHeight noFail chainBad subsW (fun _ => []) 1 = .ok (fun _ => [], []) := by
  constructor
  · have h := (stamping_uses_block_number.1 noFail chainN7 subsW (fun _ => [])
      3 blockN7 7 _ _ (by decide) (by decide) rfl).1
    exact h "0x1" (stamp 7 txW) (by decide)
  · exact stamping_uses_block_number.2 noFail chainBad subsW (fun _ => [])
      1 blockBad (by decide) (by decide)

/-- In the flushed event list of one block, every save attempt is
strictly preceded by the notification with the same address and the same
transaction list. -/
theorem flushEvents_save_after_notif (g : Groups) :
    ∀ (ks : List String) (k : Nat) (a : String) (txs : List Transaction),
      ((ks.map (fun x =>
        [Event.notif x (g.txsFor x), Event.save x (g.txsFor x)])).flatten)[k]? =
          some (Event.save a txs) →
      ∃ j, j < k ∧
        ((ks.map (fun x =>
          [Event.notif x (g.txsFor x), Event.save x (g.txsFor x)])).flatten)[j]? =
            some (Event.notif a txs) := by
  intro ks
  induction ks with
  | nil => intro k a txs h; simp at h
  | cons x rest ih =>
    intro k a txs h
    simp only [List.map_cons, List.flatten_cons, List.cons_append,
      List.nil_append] at h ⊢
    match k with
    | 0 => simp at h
    | 1 =>
      simp only [List.getElem?_cons_succ, List.getElem?_cons_zero,
        Option.some.injEq] at h
      obtain ⟨rfl, rfl⟩ := Event.save.inj h
      exact ⟨0, by omega, by simp⟩
    | Nat.succ (Nat.succ k2) =>
      obtain ⟨j, hj, hjq⟩ := ih k2 a txs (by simpa using h)
      exact ⟨j + 2, by omega, by simpa using hjq⟩

/-- Each listed address's notification and save attempt occur among the
flushed events. -/
theorem flushEvents_mem (g : Groups) (ks : List String) (a : String)
    (ha : a ∈ ks) :
    Event.notif a (g.txsFor a) ∈ (ks.map (fun x =>
      [Event.notif x (g.txsFor x), Event.save x (g.txsFor x)])).flatten ∧
    Event.save a (g.txsFor a) ∈ (ks.map (fun x =>
      [Event.notif x (g.txsFor x), Event.save x (g.txsFor x)])).flatten := by
  constructor
  · exact List.mem_flatten.mpr ⟨_, List.mem_map_of_mem _ ha, by simp⟩
  · exact List.mem_flatten.mpr ⟨_, List.mem_map_of_mem _ ha, by simp⟩

/-- An address outside the key list receives no notification among the
flushed events. -/
theorem flushEvents_notif_filter_nil (g : Groups) (a : String) :
    ∀ ks : List String, a ∉ ks →
      ((ks.map (fun x =>
        [Event.notif x (g.txsFor x), Event.save x (g.txsFor x)])).flatten).filter
          (isNotifTo a) = [] := by
  intro ks
  induction ks with
  | nil => intro _; rfl
  | cons x rest ih =>
    intro h
    have hx : a ≠ x := fun he => h (he ▸ List.mem_cons_self x rest)
    have hr : a ∉ rest := fun hm => h (List.mem_cons_of_mem x hm)
    have h1 : isNotifTo a (Event.notif x (g.txsFor x)) = false := by
      simpa [isNotifTo] using hx.symm
    have h2 : isNotifTo a (Event.save x (g.txsFor x)) = false := rfl
    simp only [List.map_cons, List.flatten_cons, List.cons_append,
      List.nil_append, List.filter_append, List.filter_cons, h1, h2,
      Bool.false_eq_true, if_false]
    simpa using ih hr

/-- With distinct keys, at most one notification per address is emitted
per block. -/
theorem flushEvents_notif_count (g : Groups) (a : String) :
    ∀ ks : List String, ks.Nodup →
      (((ks.map (fun x =>
        [Event.notif x (g.txsFor x), Event.save x (g.txsFor x)])).flatten).filter
          (isNotifTo a)).length ≤ 1 := by
  intro ks
  induction ks with
  | nil => intro _; simp
  | cons x rest ih =>
    intro hnd
    obtain ⟨hx, hrest⟩ := List.nodup_cons.mp hnd
    by_cases hax : x = a
    · subst hax
      have hfr := flushEvents_notif_filter_nil g x rest hx
      simp [List.flatten_cons, List.filter_append, List.filter_cons,
        isNotifTo, hfr]
    · have h1 : isNotifTo a (Event.notif x (g.txsFor x)) = false := by
        simpa [isNotifTo] using hax
      have h2 : isNotifTo a (Event.save x (g.txsFor x)) = false := rfl
      simp only [List.map_cons, List.flatten_cons, List.cons_append,
        List.nil_append, List.filter_append, List.filter_cons, h1, h2,
        Bool.false_eq_true, if_false]
      simpa using ih hrest

/-- C8: for every (address, block) pair with a non-empty match group, the
Notifier is invoked with the matched list and the same list is then
appended via the Store, the notification strictly preceding the append;
no save attempt precedes its notification; at most one notification per
address is emitted per block; and the whole event sequence is independent
of store contents and save failures, so a failed append neither undoes
nor repeats a notification. -/
theorem notify_before_persist (f : String → Bool)
    (chain : Int → FetchResult) (subs : Finset String)
    (st : String → List Transaction) (h : Int) (b : Block)
    (st' : String → List Transaction) (ev : List Event)
    (hb : chain h = .ok b)
    (hp : processHeight f chain subs st h = .ok (st', ev)) :
    (∀ a, heightDelta chain subs a h ≠ [] →
        Event.notif a (heightDelta chain subs a h) ∈ ev ∧
        Event.save a (heightDelta chain subs a h) ∈ ev) ∧
    (∀ (a : String) (txs : List Transaction) (k : Nat),
        ev[k]? = some (Event.save a txs) →
        ∃ j, j < k ∧ ev[j]? = some (Event.notif a txs)) ∧
    (∀ a, (ev.filter (isNotifTo a)).length ≤ 1) ∧
    (∀ (f2 : String → Bool) (st2 : String → List Transaction),
        eventsOf (processHeight f2 chain subs st2 h) = some ev) := by
  have hp0 := hp
  unfold processHeight at hp
  simp only [hb] at hp
  have hind : ∀ (f2 : String → Bool) (st2 : String → List Transaction),
      eventsOf (processHeight f2 chain subs st2 h) = some ev := by
    intro f2 st2
    rw [processHeight_events_indep f2 f chain subs st2 st h, hp0]
    rfl
  cases hx : convertHexNumberToDecimal b.Number with
  | panicked => simp [hx] at hp
  | failed =>
    simp only [hx] at hp
    obtain ⟨-, h2⟩ := Prod.mk.injEq .. ▸ StepResult.ok.inj hp
    refine ⟨?_, ?_, ?_, hind⟩
    · intro a hne
      unfold heightDelta at hne
      simp [hb, hx] at hne
    · intro a txs k hk
      rw [← h2] at hk
      simp at hk
    · intro a
      rw [← h2]
      simp
  | ok n =>
    simp only [hx] at hp
    obtain ⟨-, h2⟩ := Prod.mk.injEq .. ▸ StepResult.ok.inj hp
    have hw : WFG (matchTransactions subs n b.Transactions emptyGroups) :=
      WFG_matchTransactions subs n b.Transactions emptyGroups WFG_emptyGroups
    have hev : ev = ((matchTransactions subs n b.Transactions
        emptyGroups).keys.map (fun x =>
          [Event.notif x ((matchTransactions subs n b.Transactions
              emptyGroups).txsFor x),
           Event.save x ((matchTransactions subs n b.Transactions
              emptyGroups).txsFor x)])).flatten := by
      rw [← h2, flushKeys_events]
    have hdelta : ∀ a, heightDelta chain subs a h =
        (matchTransactions subs n b.Transactions emptyGroups).txsFor a := by
      intro a
      unfold heightDelta
      simp [hb, hx]
    refine ⟨?_, ?_, ?_, hind⟩
    · intro a hne
      rw [hdelta] at hne ⊢
      have hak : a ∈ (matchTransactions subs n b.Transactions
          emptyGroups).keys := by
        by_contra hcon
        exact hne (hw.2.1 a hcon)
      rw [hev]
      exact flushEvents_mem _ _ a hak
    · intro a txs k hk
      rw [hev] at hk ⊢
      exact flushEvents_save_after_notif _ _ k a txs hk
    · intro a
      rw [hev]
      exact flushEvents_notif_count _ a _ hw.1

/-- Witness for `notify_before_persist`: in the concrete height-5 step,
address "0x1" has a non-empty match group and both its notification and
its save attempt occur among the emitted events. -/
theorem notify_before_persist_witness :
    Event.notif "0x1" (heightDelta chainW subsW "0x1" 5) ∈ evW ∧
    Event.save "0x1" (heightDelta chainW subsW "0x1" 5) ∈ evW := by
  have h := notify_before_persist noFail chainW subsW (fun _ => [])
    5 blockW5 _ _ (by decide) rfl
  exact h.1 "0x1" (by decide)

/-- C5 amended: a height result or block number that is a string of at
least two characters whose tail is not valid hex is handled exactly like
a fetch failure: the refresh tick leaves `currentBlock` unchanged and the
scan height is skipped with no store change and no events, with no
panic. -/
theorem malformed_hex_skipped :
    (∀ (s : String) (c : Int), 2 ≤ s.length →
        goParseInt16 (s.drop 2) = none →
        updateCurrentBlockModel (RpcHeightResult.str s) c = .ok c) ∧
    (∀ (f : String → Bool) (chain : Int → FetchResult) (subs : Finset String)
       (st : String → List Transaction) (h : Int) (b : Block),
      chain h = .ok b → 2 ≤ b.Number.length →
      goParseInt16 (b.Number.drop 2) = none →
      processHeight f chain subs st h = .ok (st, [])) := by
  have hfail : ∀ s : String, 2 ≤ s.length → goParseInt16 (s.drop 2) = none →
      convertHexNumberToDecimal s = .failed := by
    intro s hlen hparse
    unfold convertHexNumberToDecimal
    rw [if_neg (by omega), hparse]
  constructor
  · intro s c hlen hparse
    unfold updateCurrentBlockModel
    simp [hfail s hlen hparse]
  · intro f chain subs st h b hb hlen hparse
    unfold processHeight
    simp [hb, hfail b.Number hlen hparse]

/-- Witness for `malformed_hex_skipped` at the string "0xzz" and the
malformed-number block of `chainBad`. -/
theorem malformed_hex_skipped_witness :
    updateCurrentBlockModel (RpcHeightResult.str "0xzz") 7 = .ok 7 ∧
    processHeight noFail chainBad subsW (fun _ => []) 1 =
      .ok (fun _ => [], []) := by
  constructor
  · exact malformed_hex_skipped.1 "0xzz" 7 (by decide) (by decide)
  · exact malformed_hex_skipped.2 noFail chainBad subsW (fun _ => []) 1
      blockBad (by decide) (by decide) (by decide)

/-- C5 counterexample: a height response whose result is the one-character
string "0" (shorter than two characters) makes `updateCurrentBlock` panic
at the slice `hexNumber[2:]` instead of skipping the tick, and a
non-string result makes it panic at the type assertion
`resp.Result.(string)`; neither is the claimed no-panic skip. -/
theorem unexpected_shape_panics :
    updateCurrentBlockModel (RpcHeightResult.str "0") 7 = .panicked ∧
    updateCurrentBlockModel RpcHeightResult.nonString 7 = .panicked ∧
    (StepResult.panicked : StepResult Int) ≠ .ok 7 := by
  exact ⟨by decide, rfl, by decide⟩

/-- C4: after construction, for the height `h` produced by the initial
synchronous refresh, `lastProcessedBlock = max 0 (h - LOOKBACK)` with
`LOOKBACK = 10`, never negative; when the initial refresh fails the
current height stays 0 and the last processed height is 0. -/
theorem bootstrap_lookback (r : RpcHeightResult) (hgt : Int) (s0 : SysState)
    (hu : updateCurrentBlockModel r 0 = .ok hgt)
    (hi : initSys r = .ok s0) :
    initialLookBackBlocksCount = 10 ∧
    s0.eng.lastProcessedBlock = max 0 (hgt - initialLookBackBlocksCount) ∧
    0 ≤ s0.eng.lastProcessedBlock ∧
    s0.eng.currentBlock = hgt ∧
    (r = RpcHeightResult.rpcErr → hgt = 0) := by
  unfold initSys at hi
  rw [hu] at hi
  obtain rfl := StepResult.ok.inj hi
  refine ⟨rfl, ?_, ?_, rfl, ?_⟩
  · show (if hgt - initialLookBackBlocksCount < 0 then 0
            else hgt - initialLookBackBlocksCount) =
          max 0 (hgt - initialLookBackBlocksCount)
    unfold initialLookBackBlocksCount
    split <;> omega
  · show (0 : Int) ≤ if hgt - initialLookBackBlocksCount < 0 then 0
            else hgt - initialLookBackBlocksCount
    unfold initialLookBackBlocksCount
    split <;> omega
  · intro hrq
    subst hrq
    exact (StepResult.ok.inj hu).symm

/-- Witness for `bootstrap_lookback`: the initial refresh answers "0xf"
(height 15), so construction leaves `lastProcessedBlock = max 0 (15 - 10)
= 5`. -/
theorem bootstrap_lookback_witness :
    lastOf (initSys rInitW) =
      some (max 0 (15 - initialLookBackBlocksCount)) := by
  have h := bootstrap_lookback rInitW 15 _ (by decide) rfl
  exact congrArg some h.2.1

/-- Completing a scan pass writes the snapshotted end height (and nothing
else) into `lastProcessedBlock`, whatever the store, chain, or current
head did in the meantime. -/
theorem scanEnd_sets_last (f : String → Bool) (chain : Int → FetchResult)
    (s1 : SysState) (sub : Finset String) (st e : Int) (s2 : SysState)
    (hps : s1.pendingScan = some (sub, st, e))
    (hstep : step f chain s1 .scanEnd = .ok s2) :
    s2.eng.lastProcessedBlock = e ∧
    s2.eng.currentBlock = s1.eng.currentBlock ∧
    s2.passes = s1.passes ++ [(st, e)] := by
  unfold step at hstep
  rw [hps] at hstep
  cases hrh : runHeights f chain sub (intRange st e) s1.eng.storage with
  | panicked => simp [hrh] at hstep
  | ok pr =>
    obtain ⟨stg, ev⟩ := pr
    simp only [hrh] at hstep
    obtain rfl := StepResult.ok.inj hstep
    exact ⟨rfl, rfl, rfl⟩

/-- One monotone-refresh step preserves the height invariant and never
decreases `lastProcessedBlock`. -/
theorem step_preserves (f : String → Bool) (chain : Int → FetchResult)
    (s : SysState) (act : EngAction) (s2 : SysState)
    (hinv : SysInv s)
    (hstep : step f chain s act = .ok s2)
    (hmono : ∀ r v, act = .refresh r →
        updateCurrentBlockModel r s.eng.currentBlock = .ok v →
        s.eng.currentBlock ≤ v) :
    SysInv s2 ∧ s.eng.lastProcessedBlock ≤ s2.eng.lastProcessedBlock := by
  obtain ⟨h1, h2, h3, h4⟩ := hinv
  cases act with
  | refresh r =>
    unfold step at hstep
    cases hu : updateCurrentBlockModel r s.eng.currentBlock with
    | panicked => simp [hu] at hstep
    | ok v =>
      simp only [hu] at hstep
      obtain rfl := StepResult.ok.inj hstep
      have hcv := hmono r v rfl hu
      refine ⟨⟨le_trans h1 hcv, ?_, h3, h4⟩, le_refl _⟩
      intro sub st e hps
      obtain ⟨g1, g2, g3⟩ := h2 sub st e hps
      exact ⟨g1, le_trans g2 hcv, g3⟩
  | subscribeA a =>
    unfold step at hstep
    obtain rfl := StepResult.ok.inj hstep
    exact ⟨⟨h1, h2, h3, h4⟩, le_refl _⟩
  | scanStart =>
    unfold step at hstep
    obtain rfl := StepResult.ok.inj hstep
    refine ⟨⟨h1, ?_, h3, h4⟩, le_refl _⟩
    intro sub st e hps
    obtain ⟨rfl, rfl, rfl⟩ :=
      Prod.mk.injEq .. ▸ (Option.some.inj hps)
    refine ⟨h1, le_refl _, fun p hp => ?_⟩
    have := h3 p hp
    omega
  | scanEnd =>
    cases hps : s.pendingScan with
    | none =>
      unfold step at hstep
      rw [hps] at hstep
      obtain rfl := StepResult.ok.inj hstep
      exact ⟨⟨h1, h2, h3, h4⟩, le_refl _⟩
    | some snap =>
      obtain ⟨sub, st, e⟩ := snap
      obtain ⟨g1, g2, g3⟩ := h2 sub st e hps
      obtain ⟨k1, k2, k3⟩ := scanEnd_sets_last f chain s sub st e s2 hps hstep
      have hpend : s2.pendingScan = none := by
        unfold step at hstep
        rw [hps] at hstep
        cases hrh : runHeights f chain sub (intRange st e) s.eng.storage with
        | panicked => simp [hrh] at hstep
        | ok pr =>
          obtain ⟨stg, ev⟩ := pr
          simp only [hrh] at hstep
          obtain rfl := StepResult.ok.inj hstep
          rfl
      refine ⟨⟨?_, ?_, ?_, ?_⟩, ?_⟩
      · rw [k1, k2]
        exact g2
      · intro sub2 st2 e2 hps2
        rw [hpend] at hps2
        exact absurd hps2 (by simp)
      · intro p hp
        rw [k3] at hp
        rcases List.mem_append.mp hp with hp1 | hp1
        · have := h3 p hp1
          rw [k1]
          omega
        · rw [List.mem_singleton.mp hp1, k1]
      · rw [k3]
        rw [List.pairwise_append]
        refine ⟨h4, List.pairwise_singleton _ _, ?_⟩
        intro p hp q hq
        rw [List.mem_singleton.mp hq]
        exact g3 p hp
      · rw [k1]
        exact g1

/-- The height invariant holds, and `lastProcessedBlock` never decreases,
along every run whose successful refreshes never lower the head. -/
theorem run_inv (f : String → Bool) (chain : Int → FetchResult) :
    ∀ (acts : List EngAction) (s s' : SysState),
      SysInv s → monoRunB f chain s acts = true →
      run f chain s acts = .ok s' →
      SysInv s' ∧ s.eng.lastProcessedBlock ≤ s'.eng.lastProcessedBlock := by
  intro acts
  induction acts with
  | nil =>
    intro s s' hinv hm hr
    obtain rfl := StepResult.ok.inj hr
    exact ⟨hinv, le_refl _⟩
  | cons act rest ih =>
    intro s s' hinv hm hr
    simp only [run] at hr
    cases hstep : step f chain s act with
    | panicked => simp [hstep] at hr
    | ok s2 =>
      simp only [hstep] at hr
      simp only [monoRunB, hstep] at hm
      obtain ⟨hm1, hm2⟩ := Bool.and_eq_true_iff.mp hm
      have hmono : ∀ r v, act = .refresh r →
          updateCurrentBlockModel r s.eng.currentBlock = .ok v →
          s.eng.currentBlock ≤ v := by
        intro r v heq hu
        subst heq
        simp only [hu] at hm1
        exact of_decide_eq_true hm1
      obtain ⟨hi2, hl2⟩ := step_preserves f chain s act s2 hinv hstep hmono
      obtain ⟨hi3, hl3⟩ := ih s2 s' hi2 hm2 hr
      exact ⟨hi3, le_trans hl2 hl3⟩

/-- The constructed engine satisfies the height invariant whenever the
initial refresh produced a non-negative head. -/
theorem initSys_inv (r : RpcHeightResult) (s0 : SysState)
    (hi : initSys r = .ok s0) (h0 : 0 ≤ s0.eng.currentBlock) :
    SysInv s0 := by
  unfold initSys at hi
  cases hu : updateCurrentBlockModel r 0 with
  | panicked => simp [hu] at hi
  | ok c =>
    simp only [hu] at hi
    obtain rfl := StepResult.ok.inj hi
    have h0c : (0 : Int) ≤ c := h0
    refine ⟨?_, ?_, ?_, List.Pairwise.nil⟩
    · show (if c - initialLookBackBlocksCount < 0 then 0
              else c - initialLookBackBlocksCount) ≤ c
      unfold initialLookBackBlocksCount
      split <;> omega
    · intro sub st e hps
      exact absurd hps (by simp)
    · intro p hp
      exact absurd hp (List.not_mem_nil p)

/-- Pairwise separation transferred to optional indexing. -/
theorem pairwise_getElem_opt {α : Type} {R : α → α → Prop} (l : List α)
    (hpw : l.Pairwise R) (i j : Nat) (p q : α) (hij : i < j)
    (hp : l[i]? = some p) (hq : l[j]? = some q) : R p q := by
  obtain ⟨hi, hip⟩ := List.getElem?_eq_some_iff.mp hp
  obtain ⟨hj, hjq⟩ := List.getElem?_eq_some_iff.mp hq
  have := List.pairwise_iff_getElem.mp hpw i j hi hj hij
  rw [hip, hjq] at this
  exact this

/-- C2 counterexample: after a scan tick at head 15 (`lastProcessedBlock
= 15`), a height refresh that returns the non-negative value 3 followed by
another scan tick drives `lastProcessedBlock` down to 3 — the scan tick
writes its (smaller) snapshot unconditionally, so the sequence is not
non-decreasing. -/
theorem last_processed_decreases :
    lastOf (runFromInit noFail chainFail rInitW actsTick) = some 15 ∧
    lastOf (runFromInit noFail chainFail rInitW actsDrop) = some 3 ∧
    ¬ ((15 : Int) ≤ 3) :=
  ⟨rfl, rfl, by decide⟩

/-- C2 amended: after each scan tick `lastProcessedBlock` equals (hence
never exceeds) the `currentBlock` snapshotted at that tick's start; and
`lastProcessedBlock` is non-decreasing provided every successful height
refresh writes a value no smaller than the head it overwrites. -/
theorem last_processed_monotone (f : String → Bool)
    (chain : Int → FetchResult) (r : RpcHeightResult)
    (acts1 acts2 : List EngAction) (s0 s1 s2 : SysState)
    (hinit : initSys r = .ok s0) (h0 : 0 ≤ s0.eng.currentBlock)
    (hm1 : monoRunB f chain s0 acts1 = true)
    (hr1 : run f chain s0 acts1 = .ok s1)
    (hm2 : monoRunB f chain s1 acts2 = true)
    (hr2 : run f chain s1 acts2 = .ok s2) :
    s1.eng.lastProcessedBlock ≤ s2.eng.lastProcessedBlock ∧
    (∀ (sub : Finset String) (st e : Int) (s3 : SysState),
        s1.pendingScan = some (sub, st, e) →
        step f chain s1 .scanEnd = .ok s3 →
        s3.eng.lastProcessedBlock = e ∧ e ≤ s1.eng.currentBlock) := by
  have hinv0 := initSys_inv r s0 hinit h0
  obtain ⟨hinv1, -⟩ := run_inv f chain acts1 s0 s1 hinv0 hm1 hr1
  obtain ⟨-, hmono⟩ := run_inv f chain acts2 s1 s2 hinv1 hm2 hr2
  refine ⟨hmono, ?_⟩
  intro sub st e s3 hps hstep
  exact ⟨(scanEnd_sets_last f chain s1 sub st e s3 hps hstep).1,
         (hinv1.2.1 sub st e hps).2.1⟩

/-- Witness for `last_processed_monotone`: along the monotone trace
(head 15, tick, refresh to 20, tick) the processed height goes 15 then
20, non-decreasing. -/
theorem last_processed_monotone_witness :
    lastOf (runFromInit noFail chainFail rInitW actsTick) = some 15 ∧
    lastOf (runFromInit noFail chainFail rInitW actsMono) = some 20 ∧
    (15 : Int) ≤ 20 := by
  have h := last_processed_monotone noFail chainFail rInitW actsTick actsGrow
    _ _ _ rfl (by decide) rfl rfl rfl rfl
  exact ⟨rfl, rfl, h.1⟩

/-- C3 counterexample: from head 15, one scan tick sets
`lastProcessedBlock = 15`; a subsequent refresh writing the client value 3
leaves the reachable state with `lastProcessedBlock = 15 >
currentBlock = 3`, violating the claimed invariant. -/
theorem height_invariant_violated :
    heightsOf (runFromInit noFail chainFail rInitW actsInv) = some (3, 15) ∧
    ¬ ((15 : Int) ≤ 3) :=
  ⟨rfl, by decide⟩

/-- C3 amended: in every state reachable from a constructed engine with a
non-negative initial head, by any interleaving of subscribes, scan steps
and height refreshes that never lower the head,
`lastProcessedBlock <= currentBlock` holds. -/
theorem height_invariant_mono_refresh (f : String → Bool)
    (chain : Int → FetchResult) (r : RpcHeightResult)
    (acts : List EngAction) (s0 s : SysState)
    (hinit : initSys r = .ok s0) (h0 : 0 ≤ s0.eng.currentBlock)
    (hm : monoRunB f chain s0 acts = true)
    (hr : run f chain s0 acts = .ok s) :
    s.eng.lastProcessedBlock ≤ s.eng.currentBlock :=
  ((run_inv f chain acts s0 s (initSys_inv r s0 hinit h0) hm hr).1).1

/-- Witness for `height_invariant_mono_refresh` along the monotone trace:
the reached state has heights (20, 20) and the invariant holds. -/
theorem height_invariant_mono_refresh_witness :
    heightsOf (runFromInit noFail chainFail rInitW actsMono) =
      some (20, 20) ∧ (20 : Int) ≤ 20 := by
  have h := height_invariant_mono_refresh noFail chainFail rInitW actsMono
    _ _ rfl (by decide) rfl rfl
  exact ⟨rfl, h⟩

/-- C6 counterexample: with every block fetch failing, the pass over 6..15
covers height 7 and fails to fetch it; after a refresh down to 3 and back
up to 20, the pass over 4..20 covers height 7 again — the skipped height
is retried by a later pass once the head moves backwards. -/
theorem failed_height_retried :
    passesOf (runFromInit noFail chainFail rInitW actsRetry) =
      some [(6, 15), (16, 3), (4, 20)] ∧
    chainFail 7 = FetchResult.fetchErr ∧
    ((6 : Int) ≤ 7 ∧ (7 : Int) ≤ 15) ∧
    ((4 : Int) ≤ 7 ∧ (7 : Int) ≤ 20) :=
  ⟨rfl, rfl, by decide, by decide⟩

/-- C6 amended: a completed pass always writes the endHeight captured at
its start (not a possibly-advanced `currentBlock`) regardless of
per-height fetch failures; and provided refreshes never lower the head, no
height covered by one pass (in particular a height whose fetch failed) is
ever covered again by a later pass. -/
theorem skipped_heights_not_retried (f : String → Bool)
    (chain : Int → FetchResult) (r : RpcHeightResult)
    (acts : List EngAction) (s0 s : SysState)
    (hinit : initSys r = .ok s0) (h0 : 0 ≤ s0.eng.currentBlock)
    (hm : monoRunB f chain s0 acts = true)
    (hr : run f chain s0 acts = .ok s) :
    (∀ (s1 : SysState) (sub : Finset String) (st e : Int) (s2 : SysState),
        s1.pendingScan = some (sub, st, e) →
        step f chain s1 .scanEnd = .ok s2 →
        s2.eng.lastProcessedBlock = e) ∧
    (∀ (i j : Nat) (p q : Int × Int), i < j →
        s.passes[i]? = some p → s.passes[j]? = some q →
        ∀ hgt : Int, p.1 ≤ hgt → hgt ≤ p.2 →
          ¬ (q.1 ≤ hgt ∧ hgt ≤ q.2)) := by
  refine ⟨?_, ?_⟩
  · intro s1 sub st e s2 hps hstep
    exact (scanEnd_sets_last f chain s1 sub st e s2 hps hstep).1
  · have hinv := (run_inv f chain acts s0 s
      (initSys_inv r s0 hinit h0) hm hr).1
    have hpw := hinv.2.2.2
    intro i j p q hij hpi hqj hgt hg1 hg2
    have hlt : p.2 < q.1 :=
      pairwise_getElem_opt s.passes hpw i j p q hij hpi hqj
    rintro ⟨hq1, -⟩
    omega

/-- Witness for `skipped_heights_not_retried`: along the monotone trace
the two completed passes are (6,15) and (16,20), and height 7 of the first
pass is not covered by the second. -/
theorem skipped_heights_not_retried_witness :
    passesOf (runFromInit noFail chainFail rInitW actsMono) =
      some [(6, 15), (16, 20)] ∧
    ¬ ((16 : Int) ≤ 7 ∧ (7 : Int) ≤ 20) := by
  have h := skipped_heights_not_retried noFail chainFail rInitW actsMono
    _ _ rfl (by decide) rfl rfl
  exact ⟨rfl, h.2 0 1 (6, 15) (16, 20) (by decide) rfl rfl 7
    (by decide) (by decide)⟩
